import Mathlib

/-!
Verification of the SCDH ui-components tree view, button and page renderer.

The development shallowly embeds the TypeScript sources:
* `src/components/ui/imports/button.tsx` (the `TreeView` component and its
  helpers: `expandedItemIds`/`walkTreeItems`, `handleSelectChange`,
  `handleDragStart`, `handleDrop`, the `TreeNode`/`TreeLeaf` event handlers
  and the `TreeIcon` resolver),
* `src/components/ui/scdh/tree-view.tsx` (`createTreeData`),
* the `PageView` component (`renderContent` and the sections map).

Icons, actions and callbacks are opaque runtime values in the source; they are
modelled as `Option String` / `Option Unit` handles whose JavaScript
truthiness is `Option.isSome` (component references are always truthy).
React `useState` cells become explicit state records, and invocations of
caller-supplied callbacks are recorded as an explicit event list.
-/

namespace SCDH

/-- JavaScript truthiness of an optional string: `undefined` and `""` are
falsy, every other string is truthy.  Used for `if (!initialSelectedItemId)`
and `if (item.parentId)`. -/
def jsTruthy : Option String → Bool
  | none => false
  | some s => !(s == "")

/-- The `TreeDataItem` interface of `button.tsx`.  `children` present (even
empty) makes the item a branch; absent makes it a leaf.  `icon`,
`selectedIcon`, `openIcon` are opaque icon handles, `actions` an opaque
actions handle, `onClick` an optional callback.  `draggable` and `disabled`
are read by truthiness (absent = false), `droppable` is compared against
`false` with `!==`, so absent and `true` behave alike and are kept apart
from `false` by `Option Bool`. -/
inductive TreeDataItem : Type where
  | mk
      (id : String)
      (name : String)
      (icon : Option String)
      (selectedIcon : Option String)
      (openIcon : Option String)
      (children : Option (List TreeDataItem))
      (actions : Option Unit)
      (onClick : Option Unit)
      (draggable : Bool)
      (droppable : Option Bool)
      (disabled : Bool)

def TreeDataItem.id : TreeDataItem → String
  | .mk v _ _ _ _ _ _ _ _ _ _ => v

def TreeDataItem.name : TreeDataItem → String
  | .mk _ v _ _ _ _ _ _ _ _ _ => v

def TreeDataItem.icon : TreeDataItem → Option String
  | .mk _ _ v _ _ _ _ _ _ _ _ => v

def TreeDataItem.selectedIcon : TreeDataItem → Option String
  | .mk _ _ _ v _ _ _ _ _ _ _ => v

def TreeDataItem.openIcon : TreeDataItem → Option String
  | .mk _ _ _ _ v _ _ _ _ _ _ => v

def TreeDataItem.children : TreeDataItem → Option (List TreeDataItem)
  | .mk _ _ _ _ _ v _ _ _ _ _ => v

def TreeDataItem.onClick : TreeDataItem → Option Unit
  | .mk _ _ _ _ _ _ _ v _ _ _ => v

def TreeDataItem.draggable : TreeDataItem → Bool
  | .mk _ _ _ _ _ _ _ _ v _ _ => v

def TreeDataItem.droppable : TreeDataItem → Option Bool
  | .mk _ _ _ _ _ _ _ _ _ v _ => v

def TreeDataItem.disabled : TreeDataItem → Bool
  | .mk _ _ _ _ _ _ _ _ _ _ v => v

/-- A leaf item with only an id and a name (every optional field absent). -/
def leafItem (i : String) : TreeDataItem :=
  .mk i i none none none none none none false none false

/-- A branch item: an id, a name and a children list. -/
def branchItem (i : String) (cs : List TreeDataItem) : TreeDataItem :=
  .mk i i none none none (some cs) none none false none false

/-- The `data` prop of `TreeView`: `TreeDataItem[] | TreeDataItem`.  The
source distinguishes the two shapes with `instanceof Array`. -/
inductive TreeData : Type where
  | single (item : TreeDataItem)
  | arr (items : List TreeDataItem)

/-- The recursive helper `walkTreeItems` inside the `expandedItemIds` memo of
`button.tsx`.  The mutable accumulator `ids` is threaded explicitly and the
`true`/`undefined` return value becomes the second component.  `ids.push`
appends, `ids.pop()` is `dropLast`, and the `instanceof Array` dispatch
becomes a match on `TreeData`. -/
def walkTreeItems (expandAll : Bool) (targetId : String) :
    TreeData → List String → List String × Bool
  | .arr [], ids => (ids, false)
  | .arr (item :: rest), ids =>
      let ids1 := ids ++ [item.id]
      let r := walkTreeItems expandAll targetId (.single item) ids1
      if r.2 && !expandAll then (r.1, true)
      else
        walkTreeItems expandAll targetId (.arr rest)
          (if !expandAll then r.1.dropLast else r.1)
  | .single (.mk i _ _ _ _ children _ _ _ _ _), ids =>
      if !expandAll && i == targetId then (ids, true)
      else
        match children with
        | some cs => walkTreeItems expandAll targetId (.arr cs) ids
        | none => (ids, false)
termination_by d _ => sizeOf d
decreasing_by all_goals (simp_wf <;> omega)

/-- The `expandedItemIds` memo of `TreeView`: empty when
`initialSelectedItemId` is falsy, otherwise the accumulator left by
`walkTreeItems` over the whole data. -/
def expandedItemIds (data : TreeData) (initialSelectedItemId : Option String)
    (expandAll : Bool) : List String :=
  if jsTruthy initialSelectedItemId then
    (walkTreeItems expandAll (initialSelectedItemId.getD "") data []).1
  else []

/-- Ids of all nodes of a forest, in depth-first order (own id before
children, siblings in order). -/
def forestIds : List TreeDataItem → List String
  | [] => []
  | .mk i _ _ _ _ children _ _ _ _ _ :: rest =>
      i ::
        ((match children with
          | some cs => forestIds cs
          | none => []) ++ forestIds rest)
termination_by l => sizeOf l
decreasing_by all_goals (simp_wf <;> omega)

/-- Ids of the branch nodes (items whose `children` field is present) of a
forest, in depth-first order. -/
def branchIds : List TreeDataItem → List String
  | [] => []
  | .mk i _ _ _ _ children _ _ _ _ _ :: rest =>
      (match children with
       | some cs => i :: branchIds cs
       | none => []) ++ branchIds rest
termination_by l => sizeOf l
decreasing_by all_goals (simp_wf <;> omega)

/-- Following the specification's words: the sequence of identifiers from a
root of the forest down to the first depth-first node whose id is
`targetId`, inclusive; `none` when no node of the forest has that id. -/
def pathToForest (targetId : String) : List TreeDataItem → Option (List String)
  | [] => none
  | .mk i _ _ _ _ children _ _ _ _ _ :: rest =>
      if i == targetId then some [i]
      else
        (match children with
         | some cs => (pathToForest targetId cs).map (fun p => i :: p)
         | none => none).orElse
          (fun _ => pathToForest targetId rest)
termination_by l => sizeOf l
decreasing_by all_goals (simp_wf <;> omega)

/-- Following the specification's words: the depth (root depth `d`) of the
first depth-first node of the forest whose id is `targetId`. -/
def findDepthForest (targetId : String) (d : Nat) :
    List TreeDataItem → Option Nat
  | [] => none
  | .mk i _ _ _ _ children _ _ _ _ _ :: rest =>
      if i == targetId then some d
      else
        (match children with
         | some cs => findDepthForest targetId (d + 1) cs
         | none => none).orElse
          (fun _ => findDepthForest targetId d rest)
termination_by l => sizeOf l
decreasing_by all_goals (simp_wf <;> omega)

/-- What `walkTreeItems` leaves in the accumulator for either data shape when
`expandAll` is unset (see `walk_path_eq`): for array data the full
root-to-target path, for single-item data the path computed from the item's
children only (the item's own id is never pushed). -/
def pathOfData (targetId : String) : TreeData → Option (List String)
  | .single (.mk i _ _ _ _ children _ _ _ _ _) =>
      if i == targetId then some []
      else
        match children with
        | some cs => pathToForest targetId cs
        | none => none
  | .arr items => pathToForest targetId items

/-- Invocations of the caller-supplied callbacks, recorded as events:
`onSelectChange(item)`, a per-item `onClick()`, and
`onDocumentDrag(source, target)`. -/
inductive Event : Type where
  | selectChange (item : Option TreeDataItem)
  | itemClick (id : String)
  | documentDrag (source target : TreeDataItem)

/-- The two `useState` cells owned by the root `TreeView` instance:
`selectedItemId` and `draggedItem`. -/
structure TreeState : Type where
  selectedItemId : Option String
  draggedItem : Option TreeDataItem

/-- The idle state with no selection. -/
def initialState : TreeState := { selectedItemId := none, draggedItem := none }

/-- `handleSelectChange` of `TreeView`: store `item?.id` and, when an
`onSelectChange` callback was supplied (`hasSelectCb`), invoke it with the
item. -/
def handleSelectChange (hasSelectCb : Bool) (item : Option TreeDataItem)
    (st : TreeState) : TreeState × List Event :=
  ({ st with selectedItemId := item.map TreeDataItem.id },
   if hasSelectCb then [Event.selectChange item] else [])

/-- `handleDragStart` of `TreeView`: remember the dragged item. -/
def handleDragStart (item : TreeDataItem) (st : TreeState) : TreeState :=
  { st with draggedItem := some item }

/-- `handleDrop` of `TreeView`: the `onDocumentDrag` callback (when supplied,
`hasDragCb`) fires iff a drag is in progress and the dragged id differs from
the target id; the dragged item is cleared unconditionally. -/
def handleDrop (hasDragCb : Bool) (targetItem : TreeDataItem)
    (st : TreeState) : TreeState × List Event :=
  ({ st with draggedItem := none },
   match st.draggedItem with
   | some d =>
       if hasDragCb && !(d.id == targetItem.id) then
         [Event.documentDrag d targetItem]
       else []
   | none => [])

namespace TreeNode

/-- The `onClick` of the `AccordionTrigger` inside `TreeNode`: always selects
the item and then invokes the item's own `onClick` when present (no
`disabled` check). -/
def clickHandler (hasSelectCb : Bool) (item : TreeDataItem) (st : TreeState) :
    TreeState × List Event :=
  let r := handleSelectChange hasSelectCb (some item) st
  (r.1,
   r.2 ++ (match item.onClick with
           | some _ => [Event.itemClick item.id]
           | none => []))

/-- `TreeNode`'s `onDragStart`: rejected (default action suppressed, no state
change) only when `item.draggable` is falsy.  The returned flag records
whether `preventDefault` was called. -/
def onDragStart (item : TreeDataItem) (st : TreeState) : TreeState × Bool :=
  if !item.draggable then (st, true)
  else (handleDragStart item st, false)

/-- `TreeNode`'s `onDragOver`: accepts (allowing drop and setting the local
drag-over flag) iff `droppable !== false`, a drag is in progress, and the
dragged id differs.  Returns the new local flag and whether the drop was
enabled (`preventDefault`). -/
def onDragOver (item : TreeDataItem) (st : TreeState) (isDragOver : Bool) :
    Bool × Bool :=
  if item.droppable != some false && st.draggedItem.isSome &&
      !(((st.draggedItem.map TreeDataItem.id).getD "") == item.id) then
    (true, true)
  else (isDragOver, false)

/-- `TreeNode`'s `onDragLeave`: clear the local drag-over flag only. -/
def onDragLeave (isDragOver : Bool) : Bool :=
  false

/-- `TreeNode`'s `onDrop`: unconditionally clears the local flag and runs
`handleDrop` (no `disabled` and no `droppable` check).  Result: global
state, local drag-over flag, events. -/
def onDrop (hasDragCb : Bool) (item : TreeDataItem) (st : TreeState)
    (isDragOver : Bool) : TreeState × Bool × List Event :=
  let r := handleDrop hasDragCb item st
  (r.1, false, r.2)

end TreeNode

namespace TreeLeaf

/-- `TreeLeaf`'s `onClick`: returns early when the item is disabled,
otherwise selects the item and invokes its own `onClick` when present. -/
def clickHandler (hasSelectCb : Bool) (item : TreeDataItem) (st : TreeState) :
    TreeState × List Event :=
  if item.disabled then (st, [])
  else
    let r := handleSelectChange hasSelectCb (some item) st
    (r.1,
     r.2 ++ (match item.onClick with
             | some _ => [Event.itemClick item.id]
             | none => []))

/-- `TreeLeaf`'s `onDragStart`: rejected when `draggable` is falsy or the
item is disabled. -/
def onDragStart (item : TreeDataItem) (st : TreeState) : TreeState × Bool :=
  if !item.draggable || item.disabled then (st, true)
  else (handleDragStart item st, false)

/-- `TreeLeaf`'s `onDragOver`: like the node's but additionally requires the
item not to be disabled. -/
def onDragOver (item : TreeDataItem) (st : TreeState) (isDragOver : Bool) :
    Bool × Bool :=
  if item.droppable != some false && !item.disabled && st.draggedItem.isSome &&
      !(((st.draggedItem.map TreeDataItem.id).getD "") == item.id) then
    (true, true)
  else (isDragOver, false)

/-- `TreeLeaf`'s `onDragLeave`: clear the local drag-over flag only. -/
def onDragLeave (isDragOver : Bool) : Bool :=
  false

/-- `TreeLeaf`'s `onDrop`: when the item is disabled the handler returns
before doing anything (no flag clearing, no `handleDrop`); otherwise it
clears the local flag and runs `handleDrop`. -/
def onDrop (hasDragCb : Bool) (item : TreeDataItem) (st : TreeState)
    (isDragOver : Bool) : TreeState × Bool × List Event :=
  if item.disabled then (st, isDragOver, [])
  else
    let r := handleDrop hasDragCb item st
    (r.1, false, r.2)

end TreeLeaf

/-- The `TreeIcon` component: start from the supplied default icon, override
by the item's `selectedIcon` when selected, else by `openIcon` when open,
else by the item's own `icon`; render nothing when the result is absent. -/
def TreeIcon (item : TreeDataItem) (isOpen isSelected : Bool)
    (defaultIcon : Option String) : Option String :=
  if isSelected && item.selectedIcon.isSome then item.selectedIcon
  else if isOpen && item.openIcon.isSome then item.openIcon
  else if item.icon.isSome then item.icon
  else defaultIcon

/-- A click event: the flag tells whether the item was rendered as a branch
(`TreeNode`) or a leaf (`TreeLeaf`). -/
def applyClick (hasSelectCb : Bool) (st : TreeState)
    (c : Bool × TreeDataItem) : TreeState :=
  if c.1 then (TreeNode.clickHandler hasSelectCb c.2 st).1
  else (TreeLeaf.clickHandler hasSelectCb c.2 st).1

/-- A sequence of click events applied in order. -/
def applyClicks (hasSelectCb : Bool) (st : TreeState)
    (cs : List (Bool × TreeDataItem)) : TreeState :=
  cs.foldl (applyClick hasSelectCb) st

/-- How many items of a forest are rendered with selected styling: both
`TreeNode` and `TreeLeaf` compare `selectedItemId === item.id`. -/
def countSelected (sel : Option String) : List TreeDataItem → Nat
  | [] => 0
  | .mk i _ _ _ _ children _ _ _ _ _ :: rest =>
      (if sel == some i then 1 else 0) +
        ((match children with
          | some cs => countSelected sel cs
          | none => 0) + countSelected sel rest)
termination_by l => sizeOf l
decreasing_by all_goals (simp_wf <;> omega)

/-- A flat input record of `createTreeData` in `tree-view.tsx`: an id, a
name, an optional parent id, an optional `'folder' | 'file'` discriminator,
and arbitrary further fields (the `[key: string]: any` index signature),
modelled as an association list of opaque values. -/
structure FlatItem : Type where
  id : String
  name : String
  parentId : Option String
  type : Option String
  extra : List (String × String)
deriving DecidableEq

/-- A materialized tree node of `createTreeData`.  The JavaScript `Map`
holds mutable nodes referencing each other, so the heap is modelled by
keeping `children` as a list of ids resolved through the map. -/
structure TreeNodeRec : Type where
  id : String
  name : String
  extra : List (String × String)
  children : Option (List String)
deriving DecidableEq

/-- `Map.set`: replace the value at an existing key (keeping its position,
as JavaScript maps keep insertion order), or append a new entry. -/
def setEntry {α : Type} (m : List (String × α)) (k : String) (v : α) :
    List (String × α) :=
  match m with
  | [] => [(k, v)]
  | (k1, v1) :: rest =>
      if k1 == k then (k, v) :: rest else (k1, v1) :: setEntry rest k v

/-- `Map.get`: the value at the first (only) entry with the given key. -/
def getEntry {α : Type} (m : List (String × α)) (k : String) : Option α :=
  match m with
  | [] => none
  | (k1, v1) :: rest => if k1 == k then some v1 else getEntry rest k

/-- The node literal built in `createTreeData`'s first pass: every field of
the record except `parentId` and `type` is spread into the node, and
`children` is the empty list for `type === 'folder'` and absent
otherwise. -/
def initNode (r : FlatItem) : TreeNodeRec :=
  { id := r.id, name := r.name, extra := r.extra,
    children := if r.type == some "folder" then some [] else none }

/-- The first pass of `createTreeData`: `itemMap.set(item.id, ...)` over the
records in input order. -/
def createTreeMap (items : List FlatItem) :
    List (String × TreeNodeRec) :=
  items.foldl (fun m r => setEntry m r.id (initNode r)) []

/-- One step of the second pass of `createTreeData`: when `item.parentId` is
truthy, look the parent up in the map and append the item's id to its
children when `parent?.children` is present (otherwise the item is attached
nowhere); when `parentId` is falsy, append the item's id to the root
list. -/
def attachStep (acc : List (String × TreeNodeRec) × List String)
    (r : FlatItem) : List (String × TreeNodeRec) × List String :=
  if jsTruthy r.parentId then
    match getEntry acc.1 (r.parentId.getD "") with
    | some p =>
        match p.children with
        | some cs =>
            (setEntry acc.1 (r.parentId.getD "")
              { p with children := some (cs ++ [r.id]) }, acc.2)
        | none => acc
    | none => acc
  else (acc.1, acc.2 ++ [r.id])

/-- `createTreeData`: the first pass builds the map of nodes, the second
pass attaches every record to its parent or to the root list.  The result
is the final heap together with the ids of the root entries (the returned
`rootItems` array, resolved through the heap). -/
def createTreeData (items : List FlatItem) :
    List (String × TreeNodeRec) × List String :=
  items.foldl attachStep (createTreeMap items, [])

/-- The children list a folder record has accumulated after the records
`processed` have gone through the second pass: the ids of the processed
records whose truthy `parentId` equals the folder's id, in input order
(spec-side description of the attachment). -/
def childIdsUpTo (processed : List FlatItem) (r : FlatItem) :
    Option (List String) :=
  if r.type == some "folder" then
    some ((processed.filter
      (fun x => jsTruthy x.parentId && x.parentId.getD "" == r.id)).map
        FlatItem.id)
  else none

/-- The node stored for record `r` after the records `processed` have gone
through the second pass. -/
def nodeAfter (processed : List FlatItem) (r : FlatItem) : TreeNodeRec :=
  { id := r.id, name := r.name, extra := r.extra,
    children := childIdsUpTo processed r }

/-- The content of a `PageViewSection`: `string | string[]`. -/
inductive SectionContent : Type where
  | str (s : String)
  | arr (l : List String)

/-- The `PageViewSection` interface of the page renderer. -/
structure PageViewSection : Type where
  id : Option String
  title : String
  content : SectionContent

/-- One rendered section: its `h2` title and the texts of its `p`
elements. -/
structure RenderedSection : Type where
  title : String
  paragraphs : List String
deriving DecidableEq

/-- `renderContent` of `PageView`: wrap a single string into an array, then
render one paragraph per entry. -/
def renderContent (content : SectionContent) : List String :=
  let paragraphs :=
    match content with
    | .str s => [s]
    | .arr l => l
  paragraphs.map (fun p => p)

/-- The sections map of `PageView`: one `section` element per entry of the
`sections` prop, in order. -/
def PageView (sections : List PageViewSection) : List RenderedSection :=
  sections.map (fun s => { title := s.title, paragraphs := renderContent s.content })

/-- A flat folder record `a` and a file record `b` under it, parent first. -/
def demoFlat : List FlatItem :=
  [{ id := "a", name := "A", parentId := none, type := some "folder", extra := [] },
   { id := "b", name := "B", parentId := some "a", type := some "file", extra := [] }]

/-- Click events on two non-disabled leaves, `d` then `e`. -/
def demoClicks : List (Bool × TreeDataItem) :=
  [(false, leafItem "d"), (false, leafItem "e")]

/-- A disabled leaf used as a drop target. -/
def disabledLeafB : TreeDataItem :=
  .mk "b" "b" none none none none none none false none true

/-- A branch node with `droppable: false` used as a drop target. -/
def nonDroppableNodeC : TreeDataItem :=
  .mk "c" "c" none none none (some []) none none false (some false) false

/-- A disabled branch node with an `onClick` callback. -/
def disabledBranchD : TreeDataItem :=
  .mk "d" "d" none none none (some []) none (some ()) false none true

/-- A disabled leaf with an `onClick` callback. -/
def disabledLeafE : TreeDataItem :=
  .mk "e" "e" none none none none none (some ()) false none true

/-- A disabled branch node that is marked draggable. -/
def disabledDraggableBranchN : TreeDataItem :=
  .mk "n" "n" none none none (some []) none none true none true

/-- An item carrying all three icon fields. -/
def itemAllIcons : TreeDataItem :=
  .mk "i" "i" (some "ownIcon") (some "selIcon") (some "openIcon")
    none none none false none false

/-- A three-level demo forest: `a > b > c`, plus leaves `d` and `e`. -/
def demoForest : List TreeDataItem :=
  [branchItem "a" [branchItem "b" [leafItem "c"], leafItem "d"], leafItem "e"]

/-- On array data, `pathOfData` is just `pathToForest`. -/
theorem pathOfData_arr (t : String) (items : List TreeDataItem) :
    pathOfData t (.arr items) = pathToForest t items := rfl

/-- Unfolding lemma: the head step of `pathToForest` on a cons is the head
item's single-data path with the head's id prepended, falling back to the
siblings. -/
theorem pathToForest_cons (t : String) (x : TreeDataItem)
    (rest : List TreeDataItem) :
    pathToForest t (x :: rest)
      = ((pathOfData t (.single x)).map (fun p => x.id :: p)).orElse
          (fun _ => pathToForest t rest) := by
  obtain ⟨i, nm, ic, si, oi, ch, ac, oc, dg, dp, db⟩ := x
  rw [pathToForest.eq_def]
  by_cases hit : (i == t) = true
  · simp [pathOfData, TreeDataItem.id, hit, Option.orElse]
  · cases ch with
    | none =>
        simp [pathOfData, TreeDataItem.id, hit]
    | some cs =>
        cases hcs : pathToForest t cs <;>
          simp [pathOfData, TreeDataItem.id, hit, hcs, Option.orElse]

/-- With the expand-all flag unset, `walkTreeItems` leaves exactly
`pathOfData` in the accumulator and reports whether the target was found. -/
theorem walk_path_eq (t : String) :
    ∀ (d : TreeData) (ids : List String),
      walkTreeItems false t d ids
        = match pathOfData t d with
          | some p => (ids ++ p, true)
          | none => (ids, false) := by
  refine walkTreeItems.induct false t
    (fun d ids =>
      walkTreeItems false t d ids
        = match pathOfData t d with
          | some p => (ids ++ p, true)
          | none => (ids, false)) ?_ ?_ ?_ ?_ ?_ ?_
  · intro ids
    simp [walkTreeItems.eq_def, pathOfData, pathToForest.eq_def]
  · intro item rest ids ids1 r h IH
    have hr : r = walkTreeItems false t (.single item) ids1 := rfl
    have hids1 : ids1 = ids ++ [item.id] := rfl
    rw [hr, IH] at h
    rw [hids1] at IH
    cases hp : pathOfData t (.single item) with
    | none => rw [hp] at h; simp at h
    | some p =>
        rw [hp] at IH
        have hforest : pathOfData t (.arr (item :: rest))
            = some (item.id :: p) := by
          rw [pathOfData_arr, pathToForest_cons, hp]
          simp [Option.orElse]
        rw [hforest, walkTreeItems.eq_def]
        simp [IH]
  · intro item rest ids ids1 r h IH1 IH2 IH3
    have hr : r = walkTreeItems false t (.single item) ids1 := rfl
    have hids1 : ids1 = ids ++ [item.id] := rfl
    rw [hr, IH1] at h
    rw [hids1] at IH1
    cases hp : pathOfData t (.single item) with
    | some p => rw [hp] at h; simp at h
    | none =>
        rw [hp] at IH1
        have hforest : pathOfData t (.arr (item :: rest))
            = pathOfData t (.arr rest) := by
          rw [pathOfData_arr, pathToForest_cons, hp]
          simp [Option.orElse, pathOfData_arr]
        rw [hr, hids1] at IH3
        rw [IH1] at IH3
        simp only [Bool.not_false, List.dropLast_concat, dite_true] at IH3
        rw [hforest, ← IH3, walkTreeItems.eq_def]
        simp [IH1]
  · intro i nm ic si oi ch ac oc dg dp db ids h
    simp only [Bool.not_false, Bool.true_and] at h
    rw [walkTreeItems.eq_def]
    simp [pathOfData, h]
  · intro i nm ic si oi ac oc dg dp db ids h cs IH
    simp only [Bool.not_false, Bool.true_and, Bool.not_eq_true] at h
    rw [walkTreeItems.eq_def]
    simp only [h, Bool.false_and, Bool.not_false, Bool.true_and,
      Bool.false_eq_true, if_false]
    rw [IH]
    simp [pathOfData, h]
  · intro i nm ic si oi ac oc dg dp db ids h
    simp only [Bool.not_false, Bool.true_and, Bool.not_eq_true] at h
    rw [walkTreeItems.eq_def]
    simp [pathOfData, h]

/-- A path returned by `pathToForest` is never empty (it ends at the target
and starts at a root). -/
theorem pathToForest_ne_nil (t : String) :
    ∀ (items : List TreeDataItem) (p : List String),
      pathToForest t items = some p → 1 ≤ p.length := by
  intro items
  induction items using forestIds.induct with
  | case1 =>
      intro p hp
      rw [pathToForest.eq_def] at hp
      simp at hp
  | case2 i nm ic si oi ch ac oc dg dp db rest IHch IHrest =>
      intro p hp
      rw [pathToForest_cons] at hp
      cases hq : pathOfData t (.single (.mk i nm ic si oi ch ac oc dg dp db)) with
      | some q =>
          rw [hq] at hp
          simp only [Option.map_some', Option.orElse,
            Option.some.injEq] at hp
          rw [← hp]
          simp
      | none =>
          rw [hq] at hp
          simp only [Option.map_none', Option.orElse] at hp
          exact IHrest p hp

/-- `findDepthForest` is the length of the `pathToForest` path, minus one,
offset by the starting depth. -/
theorem findDepth_eq_path (t : String) :
    ∀ (items : List TreeDataItem) (d : Nat),
      findDepthForest t d items
        = (pathToForest t items).map (fun p => d + (p.length - 1)) := by
  intro items
  induction items using forestIds.induct with
  | case1 =>
      intro d
      rw [findDepthForest.eq_def, pathToForest.eq_def]
      simp
  | case2 i nm ic si oi ch ac oc dg dp db rest IHch IHrest =>
      intro d
      rw [findDepthForest.eq_def, pathToForest.eq_def]
      by_cases hit : (i == t) = true
      · simp [hit]
      · simp only [hit, Bool.false_eq_true, if_false]
        cases ch with
        | none =>
            simp [IHrest, Option.orElse]
        | some cs =>
            simp only
            rw [IHch]
            cases hcs : pathToForest t cs with
            | none => simp [IHrest, Option.orElse]
            | some q =>
                have hlen : 1 ≤ q.length := pathToForest_ne_nil t cs q hcs
                simp only [Option.map_some', Option.orElse,
                  List.length_cons]
                have heq2 : d + 1 + (q.length - 1) = d + (q.length + 1 - 1) := by
                  omega
                rw [heq2]

/-- Claim C1 (code bug): with the expand-all flag set but no
initial-selection identifier, `expandedItemIds` is empty, so the branch
node `root` is not initially open — the `if (!initialSelectedItemId)`
guard defeats `expandAll`, contradicting the spec and the repository's own
stories that pass `expandAll` without a selection. -/
theorem expandAll_ignored_without_selection_bug :
    expandedItemIds (.arr [branchItem "root" [leafItem "f"]]) none true = []
      ∧ "root" ∈ branchIds [branchItem "root" [leafItem "f"]] := by
  refine ⟨rfl, ?_⟩
  simp [branchIds, branchItem, leafItem]

/-- Claim C2, counterexample: when the tree data is passed as a single item
(not an array), the target `a` occurs at depth 0 but the computed expansion
path is empty instead of `["a"]` — the walker only pushes ids while
iterating arrays, so the root's own id is skipped for single-item data. -/
theorem expansionPath_single_data_counterexample :
    expandedItemIds (.single (branchItem "a" [leafItem "b"])) (some "a") false = []
      ∧ (branchItem "a" [leafItem "b"]).id = "a" := by
  refine ⟨?_, rfl⟩
  simp [expandedItemIds, jsTruthy, walkTreeItems, branchItem, leafItem,
    TreeDataItem.id]

/-- Claim C2 as amended: for tree data given as an array of roots and a
non-empty target identifier, the computed expansion path equals the
spec-side root-to-target id sequence (`pathToForest`): when the target
occurs at depth d the path has length d+1, and when it occurs nowhere the
path is empty.  (For single-item data the root's own id is omitted, and an
empty-string target is treated as absent — see the counterexample.) -/
theorem expansionPath_correct (items : List TreeDataItem) (t : String)
    (ht : ¬t = "") :
    expandedItemIds (.arr items) (some t) false = (pathToForest t items).getD []
    ∧ (∀ d, findDepthForest t 0 items = some d →
        (expandedItemIds (.arr items) (some t) false).length = d + 1)
    ∧ (findDepthForest t 0 items = none →
        expandedItemIds (.arr items) (some t) false = []) := by
  have htr : jsTruthy (some t) = true := by
    simp [jsTruthy]
    exact ht
  have hmain : expandedItemIds (.arr items) (some t) false
      = (pathToForest t items).getD [] := by
    rw [expandedItemIds]
    rw [htr]
    simp only [if_true, Option.getD_some]
    rw [walk_path_eq, pathOfData_arr]
    cases hpf : pathToForest t items <;> simp [hpf]
  refine ⟨hmain, fun d hd => ?_, fun hd => ?_⟩
  · rw [findDepth_eq_path] at hd
    cases hpf : pathToForest t items with
    | none => rw [hpf] at hd; simp at hd
    | some p =>
        rw [hpf] at hd
        simp only [Option.map_some', Option.some.injEq] at hd
        have hlen := pathToForest_ne_nil t items p hpf
        rw [hmain, hpf]
        simp only [Option.getD_some]
        omega
  · rw [findDepth_eq_path] at hd
    cases hpf : pathToForest t items with
    | some p => rw [hpf] at hd; simp at hd
    | none => rw [hmain, hpf]; rfl

/-- Witness for `expansionPath_correct` on the demo forest: selecting `c`,
which sits at depth 2, yields the path `a, b, c` of length 3. -/
theorem expansionPath_correct_witness :
    expandedItemIds (.arr demoForest) (some "c") false = ["a", "b", "c"]
      ∧ findDepthForest "c" 0 demoForest = some 2
      ∧ (expandedItemIds (.arr demoForest) (some "c") false).length = 2 + 1 := by
  have h := expansionPath_correct demoForest "c" (by decide)
  have hpf : pathToForest "c" demoForest = some ["a", "b", "c"] := by
    simp [demoForest, pathToForest.eq_def, branchItem, leafItem, Option.orElse]
  have hd : findDepthForest "c" 0 demoForest = some 2 := by
    rw [findDepth_eq_path, hpf]
    simp
  refine ⟨?_, hd, h.2.1 2 hd⟩
  rw [h.1, hpf]
  rfl

/-- Claim C3, counterexample: dropping onto a disabled leaf leaves the drag
state and the local drag-over flag untouched (the handler returns before
resetting anything), and dropping onto a non-disabled branch whose
`droppable` is `false` fires the callback anyway (`onDrop` never reads
`droppable`). -/
theorem drop_gating_counterexample :
    TreeLeaf.onDrop true disabledLeafB
        { selectedItemId := none, draggedItem := some (leafItem "a") } true
      = ({ selectedItemId := none, draggedItem := some (leafItem "a") }, true, [])
    ∧ TreeNode.onDrop true nonDroppableNodeC
        { selectedItemId := none, draggedItem := some (leafItem "a") } false
      = ({ selectedItemId := none, draggedItem := none }, false,
         [Event.documentDrag (leafItem "a") nonDroppableNodeC])
    ∧ disabledLeafB.disabled = true
    ∧ nonDroppableNodeC.droppable = some false
    ∧ nonDroppableNodeC.disabled = false := by
  exact ⟨rfl, rfl, rfl, rfl, rfl⟩

/-- Claim C3 as amended: on a drop with dragged item `A`, a disabled leaf
target ignores the event entirely (no callback, no state reset, no flag
clearing); any other target clears the flag, resets the drag state to idle
and fires the callback iff the two ids differ — `droppable` is never
consulted at drop time, and for branch targets neither is `disabled`. -/
theorem drop_behavior (A B : TreeDataItem) (sel : Option String) (lo : Bool) :
    (B.disabled = true →
      TreeLeaf.onDrop true B { selectedItemId := sel, draggedItem := some A } lo
        = ({ selectedItemId := sel, draggedItem := some A }, lo, []))
    ∧ (B.disabled = false →
      TreeLeaf.onDrop true B { selectedItemId := sel, draggedItem := some A } lo
        = ({ selectedItemId := sel, draggedItem := none }, false,
           if A.id == B.id then [] else [Event.documentDrag A B]))
    ∧ TreeNode.onDrop true B { selectedItemId := sel, draggedItem := some A } lo
        = ({ selectedItemId := sel, draggedItem := none }, false,
           if A.id == B.id then [] else [Event.documentDrag A B]) := by
  refine ⟨fun h => ?_, fun h => ?_, ?_⟩
  · simp [TreeLeaf.onDrop, h]
  · cases hid : A.id == B.id <;>
      simp [TreeLeaf.onDrop, handleDrop, h, hid]
  · cases hid : A.id == B.id <;>
      simp [TreeNode.onDrop, handleDrop, hid]

/-- Witness for `drop_behavior` at concrete items. -/
theorem drop_behavior_witness :
    TreeLeaf.onDrop true (leafItem "b")
        { selectedItemId := none, draggedItem := some (leafItem "a") } true
      = ({ selectedItemId := none, draggedItem := none }, false,
         [Event.documentDrag (leafItem "a") (leafItem "b")]) := by
  simpa using (drop_behavior (leafItem "a") (leafItem "b") none true).2.1 rfl

/-- Claim C4 (code bug): clicking a disabled branch node is not inert — the
`AccordionTrigger` click handler of `TreeNode` never checks `disabled`, so
the selection changes, the selection-change callback fires and the item's
own `onClick` fires; a disabled leaf, by contrast, is correctly inert.
This contradicts the source's own `disabled` documentation ("not
interactive") and the stories' disabled-folder example. -/
theorem disabled_node_click_bug :
    TreeNode.clickHandler true disabledBranchD
        { selectedItemId := none, draggedItem := none }
      = ({ selectedItemId := some "d", draggedItem := none },
         [Event.selectChange (some disabledBranchD), Event.itemClick "d"])
    ∧ disabledBranchD.disabled = true
    ∧ TreeLeaf.clickHandler true disabledLeafE
        { selectedItemId := some "x", draggedItem := none }
      = ({ selectedItemId := some "x", draggedItem := none }, []) := by
  exact ⟨rfl, rfl, rfl⟩

/-- Claim C5, counterexample: a drag-start on a disabled branch node that is
marked draggable does transition the drag state out of idle — `TreeNode`'s
`onDragStart` only checks `draggable`, not `disabled`. -/
theorem disabled_node_dragstart_counterexample :
    TreeNode.onDragStart disabledDraggableBranchN initialState
      = ({ selectedItemId := none, draggedItem := some disabledDraggableBranchN },
         false)
    ∧ disabledDraggableBranchN.disabled = true := by
  exact ⟨rfl, rfl⟩

/-- Claim C5 as amended: a drag-start never leaves the idle state when the
item's `draggable` flag is false (branch or leaf), and for leaves
additionally when the item is disabled; a disabled branch node with
`draggable` set does start a drag. -/
theorem dragStart_gating (item : TreeDataItem) (st : TreeState) :
    (item.draggable = false →
      TreeNode.onDragStart item st = (st, true)
        ∧ TreeLeaf.onDragStart item st = (st, true))
    ∧ (item.disabled = true → TreeLeaf.onDragStart item st = (st, true)) := by
  refine ⟨fun h => ⟨?_, ?_⟩, fun h => ?_⟩
  · simp [TreeNode.onDragStart, h]
  · simp [TreeLeaf.onDragStart, h]
  · simp [TreeLeaf.onDragStart, h]

/-- Witness for `dragStart_gating` at concrete items. -/
theorem dragStart_gating_witness :
    TreeNode.onDragStart (leafItem "z") initialState = (initialState, true)
      ∧ TreeLeaf.onDragStart disabledLeafE initialState = (initialState, true) := by
  exact ⟨((dragStart_gating (leafItem "z") initialState).1 rfl).1,
         (dragStart_gating disabledLeafE initialState).2 rfl⟩

/-- Claim C8: icon resolution is a pure function of
(item, isOpen, isSelected, defaultIcon) with priority `selectedIcon` (when
selected) over `openIcon` (when open) over the item's own `icon` over the
supplied default; when all are absent nothing is rendered. -/
theorem treeIcon_priority (item : TreeDataItem) (isOpen isSelected : Bool)
    (defaultIcon : Option String) :
    (∀ ic, isSelected = true → item.selectedIcon = some ic →
      TreeIcon item isOpen isSelected defaultIcon = some ic)
    ∧ (∀ ic, (isSelected = false ∨ item.selectedIcon = none) →
        isOpen = true → item.openIcon = some ic →
        TreeIcon item isOpen isSelected defaultIcon = some ic)
    ∧ (∀ ic, (isSelected = false ∨ item.selectedIcon = none) →
        (isOpen = false ∨ item.openIcon = none) → item.icon = some ic →
        TreeIcon item isOpen isSelected defaultIcon = some ic)
    ∧ ((isSelected = false ∨ item.selectedIcon = none) →
        (isOpen = false ∨ item.openIcon = none) → item.icon = none →
        TreeIcon item isOpen isSelected defaultIcon = defaultIcon) := by
  refine ⟨fun ic hs hsel => ?_, fun ic h1 ho hop => ?_,
         fun ic h1 h2 hic => ?_, fun h1 h2 hic => ?_⟩
  · simp [TreeIcon, hs, hsel]
  · rcases h1 with h | h <;> simp [TreeIcon, h, ho, hop]
  · rcases h1 with h | h <;> rcases h2 with h2 | h2 <;>
      simp [TreeIcon, h, h2, hic]
  · rcases h1 with h | h <;> rcases h2 with h2 | h2 <;>
      simp [TreeIcon, h, h2, hic]

/-- Witness for `treeIcon_priority` on an item with all three icon fields:
selected shows `selectedIcon`, open-not-selected shows `openIcon`, neither
shows the item's own icon. -/
theorem treeIcon_priority_witness :
    TreeIcon itemAllIcons true true none = some "selIcon"
      ∧ TreeIcon itemAllIcons true false none = some "openIcon"
      ∧ TreeIcon itemAllIcons false false none = some "ownIcon" := by
  exact ⟨(treeIcon_priority itemAllIcons true true none).1 "selIcon" rfl rfl,
         (treeIcon_priority itemAllIcons true false none).2.1 "openIcon"
           (Or.inl rfl) rfl rfl,
         (treeIcon_priority itemAllIcons false false none).2.2.1 "ownIcon"
           (Or.inl rfl) (Or.inl rfl) rfl⟩

/-- Claim C10: `PageView` renders exactly one section per entry of the
`sections` prop in order; a single-string content renders as exactly one
paragraph containing that string, an array of n strings as exactly n
paragraphs in array order. -/
theorem pageView_renders_sections (sections : List PageViewSection) :
    (PageView sections).length = sections.length
    ∧ PageView sections
        = sections.map
            (fun s => { title := s.title, paragraphs := renderContent s.content })
    ∧ (∀ s : String, renderContent (.str s) = [s])
    ∧ (∀ l : List String,
        renderContent (.arr l) = l
          ∧ (renderContent (.arr l)).length = l.length) := by
  refine ⟨by simp [PageView], rfl, fun s => rfl,
         fun l => ⟨by simp [renderContent], by simp [renderContent]⟩⟩

/-- `Map.get` over a map built from distinct records is `find?` on the
records. -/
theorem getEntry_map (f : FlatItem → TreeNodeRec) (l : List FlatItem)
    (k : String) :
    getEntry (l.map (fun r => (r.id, f r))) k
      = (l.find? (fun r => r.id == k)).map f := by
  induction l with
  | nil => rfl
  | cons r rest IH =>
      cases h : r.id == k with
      | true => simp [getEntry, h, List.find?_cons_of_pos]
      | false =>
          rw [List.map_cons]
          simp only [getEntry, h, Bool.false_eq_true, if_false]
          rw [IH, List.find?_cons_of_neg]
          simp [h]

/-- `Map.set` with a key absent from the map appends the entry. -/
theorem setEntry_fresh (m : List (String × TreeNodeRec)) (k : String)
    (v : TreeNodeRec) (h : ∀ e ∈ m, (e.1 == k) = false) :
    setEntry m k v = m ++ [(k, v)] := by
  induction m with
  | nil => rfl
  | cons e rest IH =>
      obtain ⟨k1, v1⟩ := e
      have h1 := h (k1, v1) (List.mem_cons_self _ _)
      simp only at h1
      simp only [setEntry, h1, Bool.false_eq_true, if_false, List.cons_append,
        List.cons.injEq, true_and]
      exact IH (fun e he => h e (List.mem_cons_of_mem _ he))

/-- Folding `Map.set` over records with fresh distinct ids appends one entry
per record, in order. -/
theorem foldl_set_fresh :
    ∀ (items : List FlatItem) (m0 : List (String × TreeNodeRec)),
      (items.map FlatItem.id).Nodup →
      (∀ r ∈ items, ∀ e ∈ m0, (e.1 == r.id) = false) →
      items.foldl (fun m r => setEntry m r.id (initNode r)) m0
        = m0 ++ items.map (fun r => (r.id, initNode r)) := by
  intro items
  induction items with
  | nil => intro m0 _ _; simp
  | cons r rest IH =>
      intro m0 hnd hf
      rw [List.map_cons] at hnd
      have hnd1 := List.nodup_cons.1 hnd
      rw [List.foldl_cons,
        setEntry_fresh m0 r.id _ (fun e he => hf r (List.mem_cons_self _ _) e he),
        IH (m0 ++ [(r.id, initNode r)]) hnd1.2 ?_]
      · simp
      · intro x hx e he
        rcases List.mem_append.1 he with he1 | he2
        · exact hf x (List.mem_cons_of_mem _ hx) e he1
        · have he3 : e = (r.id, initNode r) := by simpa using he2
          subst he3
          simp only
          refine beq_eq_false_iff_ne.2 fun heq => ?_
          exact hnd1.1 (heq ▸ List.mem_map_of_mem FlatItem.id hx)

/-- The first pass of `createTreeData` stores one freshly initialized node
per record, keyed by its id, in input order. -/
theorem createTreeMap_eq (items : List FlatItem)
    (hnd : (items.map FlatItem.id).Nodup) :
    createTreeMap items = items.map (fun r => (r.id, initNode r)) := by
  have h := foldl_set_fresh items [] hnd (fun r _ e he => absurd he (by simp))
  simpa [createTreeMap] using h

/-- `Map.set` on a map of distinct records with a present key updates exactly
that record's entry. -/
theorem setEntry_map_update :
    ∀ (items : List FlatItem) (g : FlatItem → TreeNodeRec) (k : String)
      (v : TreeNodeRec),
      (items.map FlatItem.id).Nodup → k ∈ items.map FlatItem.id →
      setEntry (items.map (fun r => (r.id, g r))) k v
        = items.map (fun r => (r.id, if (r.id == k) = true then v else g r)) := by
  intro items
  induction items with
  | nil => intro g k v _ hk; simp at hk
  | cons r rest IH =>
      intro g k v hnd hk
      rw [List.map_cons] at hnd
      have hnd1 := List.nodup_cons.1 hnd
      rw [List.map_cons, List.map_cons]
      cases h : r.id == k with
      | false =>
          have hk2 : k ∈ rest.map FlatItem.id := by
            rcases List.mem_cons.1 hk with hk1 | hk1
            · exact absurd (beq_iff_eq.2 hk1.symm) (by simp [h])
            · exact hk1
          simp only [setEntry, h, Bool.false_eq_true, if_false,
            List.cons.injEq, true_and]
          exact IH g k v hnd1.2 hk2
      | true =>
          have hk1 : r.id = k := beq_iff_eq.1 h
          subst hk1
          simp only [setEntry, beq_self_eq_true, if_true, h, List.cons.injEq,
            true_and]
          refine (List.map_congr_left fun x hx => ?_).symm
          have hxk : (x.id == r.id) = false :=
            beq_eq_false_iff_ne.2 fun heq =>
              hnd1.1 (heq ▸ List.mem_map_of_mem FlatItem.id hx)
          simp [hxk]

/-- A processed record that does not attach to `r` leaves `r`'s accumulated
children unchanged. -/
theorem childIdsUpTo_extend_not (pre : List FlatItem) (x r : FlatItem)
    (h : (jsTruthy x.parentId && (x.parentId.getD "" == r.id)) = false) :
    childIdsUpTo (pre ++ [x]) r = childIdsUpTo pre r := by
  simp [childIdsUpTo, List.filter_append, List.filter_cons, h]

/-- A processed record that does attach to `r` appends its id to `r`'s
accumulated children (when `r` is a folder). -/
theorem childIdsUpTo_extend_attach (pre : List FlatItem) (x r : FlatItem)
    (h : (jsTruthy x.parentId && (x.parentId.getD "" == r.id)) = true) :
    childIdsUpTo (pre ++ [x]) r
      = (childIdsUpTo pre r).map (fun cs => cs ++ [x.id]) := by
  cases hf : r.type == some "folder" <;>
    simp [childIdsUpTo, hf, List.filter_append, List.filter_cons, h]

/-- When the accumulated children are absent, the record is not a folder. -/
theorem childIdsUpTo_none (pre : List FlatItem) (r : FlatItem)
    (h : childIdsUpTo pre r = none) : (r.type == some "folder") = false := by
  cases hf : r.type == some "folder"
  · rfl
  · rw [childIdsUpTo, hf] at h
    simp at h

/-- When the accumulated children are present, the record is a folder. -/
theorem childIdsUpTo_some (pre : List FlatItem) (r : FlatItem) (cs : List String)
    (h : childIdsUpTo pre r = some cs) : (r.type == some "folder") = true := by
  cases hf : r.type == some "folder"
  · rw [childIdsUpTo, hf] at h
    simp at h
  · rfl

/-- The invariant of the second pass of `createTreeData`: folding
`attachStep` over `todo`, starting from the heap state after `pre`, yields
the heap state after `pre ++ todo` plus the root ids of the falsy-parent
records of `todo`, in order. -/
theorem attach_fold_eq (items : List FlatItem)
    (hnd : (items.map FlatItem.id).Nodup) :
    ∀ (todo pre : List FlatItem) (roots0 : List String),
      todo.foldl attachStep
          (items.map (fun r => (r.id, nodeAfter pre r)), roots0)
        = (items.map (fun r => (r.id, nodeAfter (pre ++ todo) r)),
           roots0 ++ (todo.filter (fun x => !jsTruthy x.parentId)).map FlatItem.id) := by
  intro todo
  induction todo with
  | nil => intro pre roots0; simp
  | cons x rest IH =>
      intro pre roots0
      rw [List.foldl_cons]
      cases hx : jsTruthy x.parentId with
      | false =>
          have hstep : attachStep
              (items.map (fun r => (r.id, nodeAfter pre r)), roots0) x
              = (items.map (fun r => (r.id, nodeAfter pre r)), roots0 ++ [x.id]) := by
            simp [attachStep, hx]
          rw [hstep]
          have hmap : items.map (fun r => (r.id, nodeAfter pre r))
              = items.map (fun r => (r.id, nodeAfter (pre ++ [x]) r)) := by
            refine List.map_congr_left fun r hr => ?_
            have hp : (jsTruthy x.parentId && (x.parentId.getD "" == r.id)) = false := by
              simp [hx]
            simp [nodeAfter, childIdsUpTo_extend_not pre x r hp]
          rw [hmap, IH (pre ++ [x]) (roots0 ++ [x.id])]
          simp [hx, List.filter_cons]
      | true =>
          have hget := getEntry_map (nodeAfter pre) items (x.parentId.getD "")
          cases hf : items.find? (fun r => r.id == x.parentId.getD "") with
          | none =>
              have hget2 : getEntry (items.map (fun r => (r.id, nodeAfter pre r)))
                  (x.parentId.getD "") = none := by
                rw [hget, hf]
                rfl
              have hstep : attachStep
                  (items.map (fun r => (r.id, nodeAfter pre r)), roots0) x
                  = (items.map (fun r => (r.id, nodeAfter pre r)), roots0) := by
                simp [attachStep, hx, hget2]
              rw [hstep]
              have hnone := List.find?_eq_none.1 hf
              have hmap : items.map (fun r => (r.id, nodeAfter pre r))
                  = items.map (fun r => (r.id, nodeAfter (pre ++ [x]) r)) := by
                refine List.map_congr_left fun r hr => ?_
                have h1 : (x.parentId.getD "" == r.id) = false := by
                  refine beq_eq_false_iff_ne.2 fun heq => ?_
                  refine hnone r hr ?_
                  exact beq_iff_eq.2 heq.symm
                have hp : (jsTruthy x.parentId && (x.parentId.getD "" == r.id)) = false := by
                  simp [h1]
                simp [nodeAfter, childIdsUpTo_extend_not pre x r hp]
              rw [hmap, IH (pre ++ [x]) roots0]
              simp [hx, List.filter_cons]
          | some r0 =>
              have hr0mem : r0 ∈ items := List.mem_of_find?_eq_some hf
              have hfs := List.find?_some hf
              have hr0id : r0.id = x.parentId.getD "" := beq_iff_eq.1 hfs
              have hget2 : getEntry (items.map (fun r => (r.id, nodeAfter pre r)))
                  (x.parentId.getD "") = some (nodeAfter pre r0) := by
                rw [hget, hf]
                rfl
              cases hch : childIdsUpTo pre r0 with
              | none =>
                  have hfold := childIdsUpTo_none pre r0 hch
                  have hch2 : (nodeAfter pre r0).children = none := by
                    simp [nodeAfter, hch]
                  have hstep : attachStep
                      (items.map (fun r => (r.id, nodeAfter pre r)), roots0) x
                      = (items.map (fun r => (r.id, nodeAfter pre r)), roots0) := by
                    simp [attachStep, hx, hget2, hch2]
                  rw [hstep]
                  have hmap : items.map (fun r => (r.id, nodeAfter pre r))
                      = items.map (fun r => (r.id, nodeAfter (pre ++ [x]) r)) := by
                    refine List.map_congr_left fun r hr => ?_
                    cases hcase : x.parentId.getD "" == r.id with
                    | false =>
                        have hp : (jsTruthy x.parentId &&
                            (x.parentId.getD "" == r.id)) = false := by
                          simp [hcase]
                        simp [nodeAfter, childIdsUpTo_extend_not pre x r hp]
                    | true =>
                        have hreq : r = r0 :=
                          List.inj_on_of_nodup_map hnd hr hr0mem
                            ((beq_iff_eq.1 hcase).symm.trans hr0id.symm)
                        subst hreq
                        have hp : (jsTruthy x.parentId &&
                            (x.parentId.getD "" == r.id)) = true := by
                          simp [hx, hcase]
                        simp [nodeAfter, childIdsUpTo_extend_attach pre x r hp, hch]
                  rw [hmap, IH (pre ++ [x]) roots0]
                  simp [hx, List.filter_cons]
              | some cs =>
                  have hch2 : (nodeAfter pre r0).children = some cs := by
                    simp [nodeAfter, hch]
                  have hstep : attachStep
                      (items.map (fun r => (r.id, nodeAfter pre r)), roots0) x
                      = (setEntry (items.map (fun r => (r.id, nodeAfter pre r)))
                          (x.parentId.getD "")
                          { nodeAfter pre r0 with children := some (cs ++ [x.id]) },
                         roots0) := by
                    simp [attachStep, hx, hget2, hch2]
                  rw [hstep]
                  have hkmem : x.parentId.getD "" ∈ items.map FlatItem.id := by
                    rw [← hr0id]
                    exact List.mem_map_of_mem _ hr0mem
                  rw [setEntry_map_update items (nodeAfter pre) _ _ hnd hkmem]
                  have hmap : items.map (fun r => (r.id,
                      if (r.id == x.parentId.getD "") = true
                      then { nodeAfter pre r0 with children := some (cs ++ [x.id]) }
                      else nodeAfter pre r))
                      = items.map (fun r => (r.id, nodeAfter (pre ++ [x]) r)) := by
                    refine List.map_congr_left fun r hr => ?_
                    cases hcase : r.id == x.parentId.getD "" with
                    | false =>
                        have h1 : (x.parentId.getD "" == r.id) = false := by
                          refine beq_eq_false_iff_ne.2 fun heq => ?_
                          exact absurd (beq_iff_eq.2 heq.symm) (by simp [hcase])
                        have hp : (jsTruthy x.parentId &&
                            (x.parentId.getD "" == r.id)) = false := by
                          simp [h1]
                        simp [hcase, nodeAfter, childIdsUpTo_extend_not pre x r hp]
                    | true =>
                        have hreq : r = r0 :=
                          List.inj_on_of_nodup_map hnd hr hr0mem
                            ((beq_iff_eq.1 hcase).trans hr0id.symm)
                        subst hreq
                        have hp : (jsTruthy x.parentId &&
                            (x.parentId.getD "" == r.id)) = true := by
                          simp only [hx, Bool.true_and]
                          exact beq_iff_eq.2 hr0id.symm ▸ (beq_iff_eq.2 hr0id.symm)
                        simp [hcase, nodeAfter,
                          childIdsUpTo_extend_attach pre x r hp, hch]
                  rw [hmap, IH (pre ++ [x]) roots0]
                  simp [hx, List.filter_cons]

/-- Before any attachment, the stored node is the freshly initialized one. -/
theorem nodeAfter_nil (r : FlatItem) : nodeAfter [] r = initNode r := rfl

/-- The full `createTreeData`, described: the heap maps every record id to
its node with the accumulated children, and the root list holds exactly the
falsy-parent records' ids in input order. -/
theorem createTreeData_eq (items : List FlatItem)
    (hnd : (items.map FlatItem.id).Nodup) :
    createTreeData items
      = (items.map (fun r => (r.id, nodeAfter items r)),
         (items.filter (fun x => !jsTruthy x.parentId)).map FlatItem.id) := by
  unfold createTreeData
  rw [createTreeMap_eq items hnd]
  have hinit : items.map (fun r => (r.id, initNode r))
      = items.map (fun r => (r.id, nodeAfter [] r)) := by
    refine List.map_congr_left fun r _ => ?_
    rw [nodeAfter_nil]
  rw [hinit]
  have h := attach_fold_eq items hnd items [] []
  simpa using h

/-- With distinct ids, `find?` by a record's own id finds that record. -/
theorem find?_id_self (items : List FlatItem)
    (hnd : (items.map FlatItem.id).Nodup) (r : FlatItem) (hr : r ∈ items) :
    items.find? (fun q => q.id == r.id) = some r := by
  cases hf : items.find? (fun q => q.id == r.id) with
  | none =>
      exact absurd (beq_iff_eq.2 rfl) (List.find?_eq_none.1 hf r hr)
  | some q =>
      have hfs := List.find?_some hf
      have hq : q = r :=
        List.inj_on_of_nodup_map hnd (List.mem_of_find?_eq_some hf) hr
          (beq_iff_eq.1 hfs)
      rw [hq]

/-- Claim C6, counterexample: a record whose parent appears only later in
the input is attached under that parent anyway (the lookup map is built in a
complete first pass), not rooted as the claim states; and a record whose
parent-identifier matches no record is dropped from the result entirely
instead of becoming a root entry. -/
theorem createTreeData_counterexample :
    (createTreeData
        [{ id := "b", name := "B", parentId := some "a", type := some "file",
           extra := [] },
         { id := "a", name := "A", parentId := none, type := some "folder",
           extra := [] }]).2
      = ["a"]
    ∧ getEntry (createTreeData
        [{ id := "b", name := "B", parentId := some "a", type := some "file",
           extra := [] },
         { id := "a", name := "A", parentId := none, type := some "folder",
           extra := [] }]).1 "a"
      = some { id := "a", name := "A", extra := [], children := some ["b"] }
    ∧ (createTreeData
        [{ id := "c", name := "C", parentId := some "zz", type := some "file",
           extra := [] }]).2
      = []
    ∧ getEntry (createTreeData
        [{ id := "c", name := "C", parentId := some "zz", type := some "file",
           extra := [] }]).1 "c"
      = some { id := "c", name := "C", extra := [], children := none } := by
  decide

/-- Claim C6 as amended: for records with distinct ids, a record with a
truthy parent-identifier matching a folder-typed record anywhere in the
input (earlier or later) is appended to that parent's children in input
order (`childIdsUpTo`); a record with no or empty parent-identifier becomes
a root entry in input order; a record whose truthy parent-identifier matches
no record, or only a non-folder record, is attached nowhere and dropped from
the result. -/
theorem createTreeData_attachment (items : List FlatItem)
    (hnd : (items.map FlatItem.id).Nodup) :
    (createTreeData items).2
        = (items.filter (fun x => !jsTruthy x.parentId)).map FlatItem.id
    ∧ (∀ r ∈ items,
        getEntry (createTreeData items).1 r.id = some (nodeAfter items r))
    ∧ (∀ x ∈ items, jsTruthy x.parentId = true →
        (∀ r ∈ items, r.id = x.parentId.getD "" →
          (r.type == some "folder") = false) →
        x.id ∉ (createTreeData items).2
          ∧ (∀ r ∈ items, ∀ cs, childIdsUpTo items r = some cs →
              x.id ∉ cs)) := by
  have heq := createTreeData_eq items hnd
  refine ⟨by rw [heq], fun r hr => ?_, fun x hx htr hnp => ⟨?_, ?_⟩⟩
  · rw [heq]
    show getEntry (items.map (fun r => (r.id, nodeAfter items r))) r.id = _
    rw [getEntry_map, find?_id_self items hnd r hr]
    rfl
  · rw [heq]
    show x.id ∉ (items.filter (fun x => !jsTruthy x.parentId)).map FlatItem.id
    intro hmem
    rcases List.mem_map.1 hmem with ⟨y, hy1, hy2⟩
    rcases List.mem_filter.1 hy1 with ⟨hy3, hy4⟩
    have hyx : y = x := List.inj_on_of_nodup_map hnd hy3 hx hy2
    rw [hyx, htr] at hy4
    simp at hy4
  · intro r hr cs hcs hmem
    have hfold := childIdsUpTo_some items r cs hcs
    rw [childIdsUpTo, hfold] at hcs
    simp only [if_true, Option.some.injEq] at hcs
    rw [← hcs] at hmem
    rcases List.mem_map.1 hmem with ⟨y, hy1, hy2⟩
    rcases List.mem_filter.1 hy1 with ⟨hy3, hy4⟩
    have hyx : y = x := List.inj_on_of_nodup_map hnd hy3 hx hy2
    rw [hyx] at hy4
    rcases Bool.and_eq_true_iff.1 hy4 with ⟨hy5, hy6⟩
    exact absurd (hnp r hr (beq_iff_eq.1 hy6).symm) (by simp [hfold])

/-- Witness for `createTreeData_attachment` on `demoFlat`: the folder `a`
is the sole root and carries `b` as its only child. -/
theorem createTreeData_attachment_witness :
    (createTreeData demoFlat).2 = ["a"]
    ∧ getEntry (createTreeData demoFlat).1 "a"
        = some { id := "a", name := "A", extra := [], children := some ["b"] } := by
  have h := createTreeData_attachment demoFlat (by decide)
  refine ⟨by rw [h.1]; rfl, ?_⟩
  have h2 := h.2.1
    { id := "a", name := "A", parentId := none, type := some "folder",
      extra := [] } (by decide)
  exact h2

/-- Claim C9: the first pass of `createTreeData` stores, for each record
with distinct ids, a node that keeps `id`, `name` and all extra fields
unchanged (the node type carries no `parentId` or `type` field), whose
`children` is the empty list exactly when the record's `type` is
`'folder'` and absent otherwise.  The embedding is a pure function, so the
input records are unchanged by construction. -/
theorem createTreeMap_node_fields (items : List FlatItem)
    (hnd : (items.map FlatItem.id).Nodup) (r : FlatItem) (hr : r ∈ items) :
    getEntry (createTreeMap items) r.id = some (initNode r)
    ∧ (initNode r).id = r.id
    ∧ (initNode r).name = r.name
    ∧ (initNode r).extra = r.extra
    ∧ (initNode r).children
        = (if r.type = some "folder" then some [] else none) := by
  refine ⟨?_, rfl, rfl, rfl, ?_⟩
  · rw [createTreeMap_eq items hnd, getEntry_map, find?_id_self items hnd r hr]
    rfl
  · by_cases h : r.type = some "folder"
    · simp [initNode, h]
    · have hb : (r.type == some "folder") = false := beq_eq_false_iff_ne.2 h
      simp [initNode, hb, h]

/-- Witness for `createTreeMap_node_fields`: the file record `b` of
`demoFlat` is stored as a node without children. -/
theorem createTreeMap_node_fields_witness :
    getEntry (createTreeMap demoFlat) "b"
      = some { id := "b", name := "B", extra := [], children := none } := by
  have h := createTreeMap_node_fields demoFlat (by decide)
    { id := "b", name := "B", parentId := some "a", type := some "file",
      extra := [] } (by decide)
  exact h.1

/-- `countSelected` counts the depth-first ids matching the selection. -/
theorem countSelected_eq (sel : Option String) :
    ∀ items : List TreeDataItem,
      countSelected sel items
        = (forestIds items).countP (fun i => sel == some i) := by
  intro items
  induction items using forestIds.induct with
  | case1 =>
      rw [countSelected.eq_def, forestIds.eq_def]
      simp
  | case2 i nm ic si oi ch ac oc dg dp db rest IHch IHrest =>
      rw [countSelected.eq_def, forestIds.eq_def]
      cases ch with
      | none =>
          cases hsel : sel == some i <;>
            simp [hsel, IHrest, List.countP_cons] <;> omega
      | some cs =>
          cases hsel : sel == some i <;>
            simp [hsel, IHch, IHrest, List.countP_cons, List.countP_append] <;>
              omega

/-- With globally distinct ids, at most one node of the forest matches any
selection value. -/
theorem countSelected_le_one (items : List TreeDataItem)
    (hnd : (forestIds items).Nodup) (sel : Option String) :
    countSelected sel items ≤ 1 := by
  rw [countSelected_eq]
  cases sel with
  | none =>
      have h0 : List.countP (fun i => (none : Option String) == some i)
          (forestIds items) = 0 :=
        List.countP_eq_zero.2 (fun a _ => by simp)
      omega
  | some s =>
      have hstep : List.countP (fun i => (some s : Option String) == some i)
          (forestIds items)
          = List.countP (fun x => x == s) (forestIds items) :=
        List.countP_congr (fun x _ => by
          constructor
          · intro hh
            exact beq_iff_eq.2 (Option.some.inj (beq_iff_eq.1 hh)).symm
          · intro hh
            exact beq_iff_eq.2 (congrArg some (beq_iff_eq.1 hh).symm))
      rw [hstep, ← List.count_eq_countP]
      exact List.nodup_iff_count_le_one.1 hnd s

/-- A click on a non-disabled item always selects that item's id. -/
theorem applyClick_selected (hasCb : Bool) (st : TreeState)
    (c : Bool × TreeDataItem) (hc : c.2.disabled = false) :
    (applyClick hasCb st c).selectedItemId = some c.2.id := by
  obtain ⟨b, item⟩ := c
  cases b <;>
    simp_all [applyClick, TreeNode.clickHandler, TreeLeaf.clickHandler,
      handleSelectChange]

/-- After a nonempty sequence of clicks on non-disabled items, the stored
selection is the id of the last clicked item. -/
theorem applyClicks_last (hasCb : Bool) :
    ∀ (cs : List (Bool × TreeDataItem)) (st : TreeState),
      (∀ c ∈ cs, c.2.disabled = false) → ∀ (hne : cs ≠ []),
      (applyClicks hasCb st cs).selectedItemId
        = some ((cs.getLast hne).2.id) := by
  intro cs
  induction cs with
  | nil => intro st h hne; exact absurd rfl hne
  | cons c rest IH =>
      intro st h hne
      cases rest with
      | nil =>
          have hc := h c (List.mem_cons_self _ _)
          show (applyClick hasCb st c).selectedItemId = _
          rw [applyClick_selected hasCb st c hc]
          rfl
      | cons d ds =>
          have h2 : ∀ x ∈ (d :: ds), x.2.disabled = false := fun x hx =>
            h x (List.mem_cons_of_mem _ hx)
          have hne2 : (d :: ds) ≠ [] := by simp
          have hfold : applyClicks hasCb st (c :: d :: ds)
              = applyClicks hasCb (applyClick hasCb st c) (d :: ds) := rfl
          rw [hfold, IH (applyClick hasCb st c) h2 hne2]
          rw [List.getLast_cons hne2]

/-- Claim C7: with globally unique ids, after any nonempty sequence of click
events on non-disabled items, at most one item of the tree is rendered with
selected styling, and the stored selection is the id of the last clicked
item. -/
theorem single_selection_invariant (items : List TreeDataItem)
    (hnd : (forestIds items).Nodup) (hasCb : Bool) (st0 : TreeState)
    (cs : List (Bool × TreeDataItem))
    (hcs : ∀ c ∈ cs, c.2.disabled = false) (hne : cs ≠ []) :
    countSelected ((applyClicks hasCb st0 cs).selectedItemId) items ≤ 1
    ∧ (applyClicks hasCb st0 cs).selectedItemId
        = some ((cs.getLast hne).2.id) :=
  ⟨countSelected_le_one items hnd _, applyClicks_last hasCb cs st0 hcs hne⟩

/-- Witness for `single_selection_invariant`: clicking `d` then `e` in the
demo forest leaves `e` selected, and at most one node matches. -/
theorem single_selection_invariant_witness :
    countSelected ((applyClicks true initialState demoClicks).selectedItemId)
        demoForest ≤ 1
    ∧ (applyClicks true initialState demoClicks).selectedItemId = some "e" := by
  have hids : forestIds demoForest = ["a", "b", "c", "d", "e"] := by
    simp [forestIds.eq_def, demoForest, branchItem, leafItem]
  have hnd : (forestIds demoForest).Nodup := by
    rw [hids]
    decide
  have h := single_selection_invariant demoForest hnd true initialState
    demoClicks (by decide) (by simp [demoClicks])
  refine ⟨h.1, ?_⟩
  rw [h.2]
  rfl

end SCDH
